import Mathlib

/-!
Verification development for the SFI-Networks topology-search engine
(`hopfield_models.py`, `hopfield_mcmc.py`).  The graph data model and the
topology constructors are embedded shallowly: adjacency and weight matrices
become total functions over node indices, the priority queues of the pruning
and lattice constructors become lists with an explicit minimum-pop operation,
and the process-wide random draws of the source become explicit oracle
parameters.  Code of the repository that lives outside the provided files
(the `HopfieldGraph` class, `fully_connected`, bit-string helpers) is
modelled from the specification, marked `Modelled from the spec:` in the
corresponding doc comment.
-/

namespace SFI

/-- Bipolar encoding of a bit: pattern bits are mapped to {-1,+1} before the
Hebbian product (spec §3). -/
def bip (b : ℕ) : ℤ := 2 * (b : ℤ) - 1

/-- Modelled from the spec: the Hebbian training value of edge `(i,j)` of
`HopfieldGraph.train` (class not in the provided sources):
`W[i][j] = (1/M) * Σ_k bip(pattern_k[i]) * bip(pattern_k[j])`. -/
def hebb (patterns : List (List ℕ)) (i j : ℕ) : ℚ :=
  ((patterns.map (fun p => ((bip (p.getD i 0) * bip (p.getD j 0) : ℤ) : ℚ))).sum) /
    (patterns.length : ℚ)

/-- The mutable weighted graph underlying a Hopfield model: `n` nodes, a 0/1
adjacency matrix `adj` and a rational weight matrix `w`, both total functions
on indices (`hop_net.adj_matrix`, `hop_net.weights` in the source). -/
structure HG where
  n : ℕ
  adj : ℕ → ℕ → Bool
  w : ℕ → ℕ → ℚ

/-- Edge count: number of lower-triangle pairs `j < i < n` with `adj i j`
(Modelled from the spec: `num_edges()` counts each undirected edge once). -/
def HG.numEdges (g : HG) : ℕ :=
  ∑ i ∈ Finset.range g.n, ((Finset.range i).filter (fun j => g.adj i j = true)).card

/-- Modelled from the spec: a fully connected graph on `N` nodes (from the
external `random_graphs.fully_connected`): every off-diagonal pair is an
edge, weights start at zero. -/
def fullyConnected (N : ℕ) : HG :=
  { n := N
    adj := fun i j => decide (i ≠ j ∧ i < N ∧ j < N)
    w := fun _ _ => 0 }

/-- Modelled from the spec: `HopfieldGraph.train()` recomputes, for every
existing edge, its weight via the Hebbian rule; absent edges keep weight 0. -/
def trainAll (patterns : List (List ℕ)) (g : HG) : HG :=
  { g with w := fun i j => if g.adj i j then hebb patterns i j else 0 }

/-- Symmetric adjacency write at `(i,j)` and `(j,i)`. -/
def HG.setAdj (g : HG) (i j : ℕ) (b : Bool) : HG :=
  { g with adj := fun a c => if (a = i ∧ c = j) ∨ (a = j ∧ c = i) then b else g.adj a c }

/-- Symmetric weight write at `(i,j)` and `(j,i)`. -/
def HG.setW (g : HG) (i j : ℕ) (v : ℚ) : HG :=
  { g with w := fun a c => if (a = i ∧ c = j) ∨ (a = j ∧ c = i) then v else g.w a c }

/-- The four assignments of the pruning loop body:
`weights[i][j] = weights[j][i] = 0; adj_matrix[i][j] = adj_matrix[j][i] = 0`. -/
def removeEdgeHG (g : HG) (i j : ℕ) : HG :=
  (g.setW i j 0).setAdj i j false

/-- An entry of the priority queues of `pruned_hopfield` / `node_neighbors`:
an item together with a rational priority, compared solely on the priority. -/
structure Entry (α : Type) where
  item : α
  priority : ℚ

/-- Pop an element of minimal priority from the list, returning it and the
remaining entries.  Models a `heapq.heappop` on a heapified list; among
equal priorities the earliest entry is returned, matching the heap built
from the list order. -/
def popMin {α : Type} : List (Entry α) → Option (Entry α × List (Entry α))
  | [] => none
  | e :: rest =>
    match popMin rest with
    | none => some (e, [])
    | some (m, rest1) =>
      if e.priority ≤ m.priority then some (e, rest) else some (m, e :: rest1)

/-- One row of the pruning priority queue: entries `((i,j), |weight i j|)`
for the existing edges `j < i` of row `i` of the lower triangle. -/
def rowPQ (g : HG) (i : ℕ) : List (Entry (ℕ × ℕ)) :=
  (List.range i).filterMap (fun j =>
    if g.adj i j = true then some ⟨(i, j), |g.w i j|⟩ else none)

/-- The full pruning priority queue of `pruned_hopfield`: all existing
lower-triangle edges with their absolute trained weights. -/
def edgePQ (g : HG) : List (Entry (ℕ × ℕ)) :=
  ((List.range g.n).map (rowPQ g)).flatten

/-- The removal loop of `pruned_hopfield`: pop the minimum-priority edge and
zero its weight and adjacency entries, `t` times.  `none` models the
`IndexError` of popping an empty heap. -/
def pruneLoop (g : HG) (pq : List (Entry (ℕ × ℕ))) : ℕ → Option HG
  | 0 => some g
  | t + 1 =>
    match popMin pq with
    | none => none
    | some (e, rest) => pruneLoop (removeEdgeHG g e.item.1 e.item.2) rest t

/-- The pruning procedure on an already-trained graph (`pruned_hopfield`
after the training branch): build the edge queue, shuffle it (the source
randomizes the order before heapification; here the shuffle is an explicit
parameter), and run `num_edges() - edges` removal iterations.  A negative
iteration count behaves like Python `range`: zero iterations. -/
def prunedCore (g : HG) (edges : ℤ) (shuffle : List (Entry (ℕ × ℕ)) → List (Entry (ℕ × ℕ))) :
    Option HG :=
  pruneLoop g (shuffle (edgePQ g)) ((g.numEdges : ℤ) - edges).toNat

/-- The trained input of the default `pruned_hopfield` path: the fully
connected net on `len(patterns[0])` nodes trained on the patterns. -/
def trainedFC (patterns : List (List ℕ)) : HG :=
  trainAll patterns (fullyConnected (patterns.headD []).length)

/-- `pruned_hopfield(patterns, edges)` with no graph argument: train the
fully connected net on the patterns, then prune. -/
def prunedHopfield (patterns : List (List ℕ)) (edges : ℤ)
    (shuffle : List (Entry (ℕ × ℕ)) → List (Entry (ℕ × ℕ))) : Option HG :=
  prunedCore (trainedFC patterns) edges shuffle

/-- Bounded symmetry of the adjacency matrix: `adj[i][j] == adj[j][i]`. -/
def SymmAdj (g : HG) : Prop :=
  ∀ i < g.n, ∀ j < g.n, g.adj i j = g.adj j i

/-- Bounded adjacency/weight consistency: `adj[i][j] == 0 ⇒ W[i][j] == 0`. -/
def Consist (g : HG) : Prop :=
  ∀ i < g.n, ∀ j < g.n, g.adj i j = false → g.w i j = 0

instance (g : HG) : Decidable (SymmAdj g) :=
  decidable_of_iff (∀ i < g.n, ∀ j < g.n, g.adj i j = g.adj j i) Iff.rfl

instance (g : HG) : Decidable (Consist g) :=
  decidable_of_iff (∀ i < g.n, ∀ j < g.n, g.adj i j = false → g.w i j = 0) Iff.rfl

/-- The structural invariant of claim C3 lifted over the optional result of
a constructor that can fail. -/
def InvO (o : Option HG) : Prop :=
  o.elim True (fun g => SymmAdj g ∧ Consist g)

/-! ### The Metropolis-Hastings optimizer (`hopfield_mcmc.py`) -/

/-- The body of `accept(curr, prop, beta)` with the early returns explicit:
`Except.error b` models `return b` from the `if`/`else`, and reaching
`Except.ok` models falling through to the Metropolis branch
(`p = exp(-beta*(prop/curr)); return binomial(1, p) == 1`).  The value the
dead branch would produce is abstracted into the oracle `metroDraw`. -/
def acceptBody (curr prop : ℚ) (metroDraw : Bool) : Except Bool Bool :=
  Bind.bind (if prop > curr then Except.error true else Except.error false)
    (fun _ : Unit => Except.ok metroDraw)

/-- The value `accept` returns: the early return when one fires, otherwise
the Metropolis draw. -/
def accept (curr prop : ℚ) (metroDraw : Bool) : Bool :=
  match acceptBody curr prop metroDraw with
  | Except.error b => b
  | Except.ok b => b

/-- The warm-start loop `while curr_score < .4: ...` of `metropolis_hastings`,
with the successive `random_edges`-built trained models supplied by `stream`
and the (randomized) scoring abstracted into the deterministic oracle
`scoreOf`.  `fuel` bounds the number of loop iterations modelled; the source
loop has no bound. -/
def warmLoop {M : Type} (scoreOf : M → ℚ) (stream : ℕ → M) : ℕ → ℕ → M → M
  | 0, _, g => g
  | fuel + 1, k, g =>
    if scoreOf g < 2 / 5 then warmLoop scoreOf stream fuel (k + 1) (stream k) else g

/-- The initialization of `metropolis_hastings` (lines 42-57): when no
`hop_graph` is supplied one random model is built first, and then the
`while curr_score < .4` warm-start loop runs in either case. -/
def mhInit {M : Type} (hop0 : Option M) (stream : ℕ → M) (scoreOf : M → ℚ) (fuel : ℕ) : M :=
  match hop0 with
  | some g => warmLoop scoreOf stream fuel 0 g
  | none => warmLoop scoreOf stream fuel 1 (stream 0)

/-- The external collaborators of the optimizer, abstracted as deterministic
oracles: retrievability performance, wiring cost, the in-group-edge
statistic, the proposal generator (copy + `moves_per_iter` rewirings), the
stream of random warm-start models, and the would-be Metropolis draws. -/
structure MHOracles (M : Type) where
  perfOf : M → ℚ
  costOf : M → ℚ
  inGroupOf : M → ℚ
  propose : M → M
  stream : ℕ → M
  draw : ℕ → Bool

/-- `score(graph)` with the default `cost_mean = 5000`, `cost_std = 3000`:
`alpha * perf + (1 - alpha) * (-(cost - mean) / std)`. -/
def mhScoreOf {M : Type} (O : MHOracles M) (alpha : ℚ) (g : M) : ℚ :=
  alpha * O.perfOf g + (1 - alpha) * (-1 * ((O.costOf g - 5000) / 3000))

/-- The per-iteration state of the search loop of `metropolis_hastings`. -/
structure MHState (M : Type) where
  hopGraph : M
  currScore : ℚ
  bestGraph : M
  bestScore : ℚ
  runCount : ℕ
  fpCount : ℕ
  perfHist : List ℚ
  costHist : List ℚ
  inGroupHist : List ℚ

/-- One iteration of the main search loop (lines 65-106): propose (the
reference policy is always rewiring, `prop_type = 0`), score, accept or
reject, re-score the current model, append to the histories (the in-group
history every 5th iteration), update the best model, bump the counter. -/
def mhStep {M : Type} (O : MHOracles M) (alpha : ℚ) (s : MHState M) : MHState M :=
  let prop := O.propose s.hopGraph
  let propScore := mhScoreOf O alpha prop
  let acc := accept s.currScore propScore (O.draw s.runCount)
  let hg := if acc then prop else s.hopGraph
  let fp := if acc then 0 else s.fpCount + 1
  let currPerf := O.perfOf hg
  let currCost := O.costOf hg
  let newScore := alpha * currPerf + (1 - alpha) * (-1 * ((currCost - 5000) / 3000))
  let inG := if s.runCount % 5 = 0 then s.inGroupHist ++ [O.inGroupOf hg] else s.inGroupHist
  let best := if newScore > s.bestScore then (hg, newScore) else (s.bestGraph, s.bestScore)
  { hopGraph := hg
    currScore := newScore
    bestGraph := best.1
    bestScore := best.2
    runCount := s.runCount + 1
    fpCount := fp
    perfHist := s.perfHist ++ [currPerf]
    costHist := s.costHist ++ [currCost]
    inGroupHist := inG }

/-- `while run_count < max_iter` starting from `run_count = 0`: exactly
`max_iter` iterations. -/
def mhLoop {M : Type} (O : MHOracles M) (alpha : ℚ) : ℕ → MHState M → MHState M
  | 0, s => s
  | t + 1, s => mhLoop O alpha t (mhStep O alpha s)

/-- `metropolis_hastings`: warm start, run the loop, return the best model
and the three histories. -/
def metropolisHastings {M : Type} (O : MHOracles M) (alpha : ℚ) (maxIter : ℕ)
    (hop0 : Option M) (fuel : ℕ) : M × List ℚ × List ℚ × List ℚ :=
  let g0 := mhInit hop0 O.stream (mhScoreOf O alpha) fuel
  let s0 : MHState M :=
    { hopGraph := g0
      currScore := mhScoreOf O alpha g0
      bestGraph := g0
      bestScore := mhScoreOf O alpha g0
      runCount := 0
      fpCount := 0
      perfHist := []
      costHist := []
      inGroupHist := [] }
  let sF := mhLoop O alpha maxIter s0
  (sF.bestGraph, sF.perfHist, sF.costHist, sF.inGroupHist)

/-! ### The nearest-neighbor lattice constructor (`hopfield_lattice`) -/

/-- A graph with no edges on `N` nodes (the blank slate
`HopfieldGraph(Graph(nodes), states)` built from edgeless nodes). -/
def emptyHG (N : ℕ) : HG :=
  { n := N, adj := fun _ _ => false, w := fun _ _ => 0 }

/-- Modelled from the spec: `HopfieldGraph.full_weights` (class not in the
provided sources) — the full pairwise trained weight matrix of a fully
connected model; self-weights are always 0. -/
def fullWeights (patterns : List (List ℕ)) (i j : ℕ) : ℚ :=
  if i = j then 0 else hebb patterns i j

/-- The priority queue of `node_neighbors(i)`: every node `j` of the graph
(`for j in range(len(hop_graph.nodes))`, including `j = i`), with priority
the negated magnitude `-|full_weights[i][j]|`. -/
def nodePQ (patterns : List (List ℕ)) (N i : ℕ) : List (Entry ℕ) :=
  (List.range N).map (fun j => ⟨j, -|fullWeights patterns i j|⟩)

/-- `k` pops from a min-priority queue, collecting the popped items in order;
`none` models the `IndexError` of popping an exhausted heap. -/
def popK {α : Type} : ℕ → List (Entry α) → Option (List α)
  | 0, _ => some []
  | t + 1, pq =>
    match popMin pq with
    | none => none
    | some (e, rest) => (popK t rest).map (fun l => e.item :: l)

/-- `node_neighbors(i)`: the items of the `k` smallest-priority entries. -/
def nodeNeighbors (patterns : List (List ℕ)) (N k i : ℕ) : Option (List ℕ) :=
  popK k (nodePQ patterns N i)

/-- Sequence a list of optional values, failing if any fails. -/
def seqOpt {α : Type} : List (Option α) → Option (List α)
  | [] => some []
  | o :: rest =>
    match o, seqOpt rest with
    | some a, some l => some (a :: l)
    | _, _ => none

/-- `nearest_neighbors`: the per-node neighbor selections for all nodes. -/
def nearestNeighbors (patterns : List (List ℕ)) (N k : ℕ) : Option (List (List ℕ)) :=
  seqOpt ((List.range N).map (nodeNeighbors patterns N k))

/-- `make_edge(i, j)`: symmetric adjacency write followed by
`train_edge(i, j)` (Modelled from the spec: `train_edge` recomputes exactly
edge `(i,j)`'s weight to the value `train_all` would assign). -/
def makeEdge (patterns : List (List ℕ)) (g : HG) (i j : ℕ) : HG :=
  (g.setAdj i j true).setW i j (hebb patterns i j)

/-- The inner loop of `hopfield_lattice` for node `i`: for each selected
neighbor `j`, skip when `intersection` is set and `i` is not among `j`'s own
selections, otherwise make the edge. -/
def latticeRow (patterns : List (List ℕ)) (nbrs : List (List ℕ)) (inter : Bool)
    (i : ℕ) (g : HG) : HG :=
  (nbrs.getD i []).foldl
    (fun g1 j => if inter = true ∧ i ∉ nbrs.getD j [] then g1 else makeEdge patterns g1 i j) g

/-- The edge-construction loop of `hopfield_lattice` (lines 231-238), given
the per-node neighbor selections. -/
def buildLattice (patterns : List (List ℕ)) (N : ℕ) (nbrs : List (List ℕ))
    (inter : Bool) : HG :=
  (List.range N).foldl (fun g i => latticeRow patterns nbrs inter i g)
    (trainAll patterns (emptyHG N))

/-- `hopfield_lattice(states, k, intersection)`. -/
def hopfieldLattice (patterns : List (List ℕ)) (k : ℕ) (inter : Bool) : Option HG :=
  (nearestNeighbors patterns (patterns.headD []).length k).map
    (fun nbrs => buildLattice patterns (patterns.headD []).length nbrs inter)

/-! ### The stochastic-block-model constructor (`hopfield_sbm`) -/

/-- Modelled from the spec: `flip_bits` from the external bit-string
helpers — flips every bit of a signature. -/
def flipBits (s : List ℕ) : List ℕ := s.map (fun b => 1 - b)

/-- Modelled from the spec: the firing signature of node `i` across the
stored patterns (`bit_list_to_string([state[i] for state in states])`). -/
def rawSig (states : List (List ℕ)) (i : ℕ) : List ℕ :=
  states.map (fun st => st.getD i 0)

/-- The signature canonicalized against the probability-table keys, as in
the `patterns_cache` lookup of `hopfield_sbm`: flip when the literal
signature is absent from the table. -/
def canonSig (keys : List (List ℕ)) (states : List (List ℕ)) (i : ℕ) : List ℕ :=
  if rawSig states i ∈ keys then rawSig states i else flipBits (rawSig states i)

/-- Modelled from the spec: the size of the node group of signature `s`
(`len(groups[...])` under `node_groups`, which groups the nodes by
canonicalized signature). -/
def groupSize (keys : List (List ℕ)) (states : List (List ℕ)) (N : ℕ) (s : List ℕ) : ℕ :=
  ((List.range N).filter (fun i => canonSig keys states i = s)).length

/-- All ordered key pairs `(str1, str2)` in the iteration order of the
nested loops over `edge_probs.keys()`. -/
def pairList (keys : List (List ℕ)) : List (List ℕ × List ℕ) :=
  (keys.map (fun a => keys.map (fun b => (a, b)))).flatten

/-- The `expected_edges` accumulation of `adjust_probs`, including the
`considered_pairs` bookkeeping: an ordered pair already seen is skipped. -/
def expectedLoop (size : List ℕ → ℕ) (p : List ℕ → List ℕ → ℚ) :
    List (List ℕ × List ℕ) → List (List ℕ × List ℕ) → ℚ
  | _, [] => 0
  | seen, q :: rest =>
    if q ∈ seen then expectedLoop size p seen rest
    else (size q.1 : ℚ) * (size q.2 : ℚ) * p q.1 q.2 + expectedLoop size p (q :: seen) rest

/-- `expected_edges` as computed by `adjust_probs`. -/
def expectedEdgesCode (keys : List (List ℕ)) (size : List ℕ → ℕ)
    (p : List ℕ → List ℕ → ℚ) : ℚ :=
  expectedLoop size p [] (pairList keys)

/-- The in-place rescaling loop of `adjust_probs`: each ordered key pair's
entry is overwritten with `ratio * `old value. -/
def updateLoop (ratio : ℚ) : List (List ℕ × List ℕ) → (List ℕ → List ℕ → ℚ) →
    (List ℕ → List ℕ → ℚ)
  | [], p => p
  | q :: rest, p =>
    updateLoop ratio rest (fun a b => if a = q.1 ∧ b = q.2 then ratio * p a b else p a b)

/-- `adjust_probs`: compute the expected edge count under the current
probabilities, then rescale every entry by
`2 * num_edges / expected_edges`. -/
def adjustProbs (keys : List (List ℕ)) (size : List ℕ → ℕ) (numEdges : ℕ)
    (p : List ℕ → List ℕ → ℚ) : List ℕ → List ℕ → ℚ :=
  updateLoop (2 * (numEdges : ℚ) / expectedEdgesCode keys size p) (pairList keys) p

/-- The rescale factor of `adjust_probs`. -/
def adjustRatio (keys : List (List ℕ)) (size : List ℕ → ℕ) (numEdges : ℕ)
    (p : List ℕ → List ℕ → ℚ) : ℚ :=
  2 * (numEdges : ℚ) / expectedEdgesCode keys size p

/-- The Bernoulli edge-generation loop of `hopfield_sbm`: for every pair
`j < i` the edge is made iff the uniform draw `u i j` is below the adjusted
group-pair probability. -/
def sbmGenerate (keys states : List (List ℕ)) (p1 : List ℕ → List ℕ → ℚ)
    (u : ℕ → ℕ → ℚ) (N : ℕ) : HG :=
  (List.range N).foldl
    (fun g i =>
      (List.range i).foldl
        (fun g1 j =>
          if u i j < p1 (canonSig keys states i) (canonSig keys states j) then
            g1.setAdj i j true
          else g1)
        g)
    (emptyHG N)

/-- `hopfield_sbm(edge_probs, states, num_edges)`: adjust the probabilities
(in place in the source — the adjusted table is returned here as the second
component), generate the edges, train.  `u` supplies the
`np.random.uniform()` draws. -/
def hopfieldSbm (keys : List (List ℕ)) (p : List ℕ → List ℕ → ℚ)
    (states : List (List ℕ)) (numEdges : ℕ) (u : ℕ → ℕ → ℚ) :
    HG × (List ℕ → List ℕ → ℚ) :=
  let N := (states.headD []).length
  let p1 := adjustProbs keys (groupSize keys states N) numEdges p
  (trainAll states (sbmGenerate keys states p1 u N), p1)

/-- The expected number of undirected edges produced by the generation loop
of `hopfield_sbm` under a probability table `p1`: the sum of the per-pair
Bernoulli probabilities over all pairs `j < i < N`. -/
def expectedUndirected (keys states : List (List ℕ)) (N : ℕ)
    (p1 : List ℕ → List ℕ → ℚ) : ℚ :=
  ∑ i ∈ Finset.range N, ∑ j ∈ Finset.range i,
    p1 (canonSig keys states i) (canonSig keys states j)

/-- Pointwise edge inclusion between two graphs: every edge of `g1` is an
edge of `g2`. -/
def AdjLE (g1 g2 : HG) : Prop :=
  ∀ a c, g1.adj a c = true → g2.adj a c = true

/-! ### Priority-queue lemmas -/

theorem popMin_eq_none {α : Type} (l : List (Entry α)) : popMin l = none ↔ l = [] := by
  cases l with
  | nil => simp [popMin]
  | cons e rest =>
    simp only [popMin]
    cases h : popMin rest with
    | none => simp
    | some p =>
      obtain ⟨m, rest1⟩ := p
      by_cases hle : e.priority ≤ m.priority <;> simp [hle]

theorem popMin_perm {α : Type} {l : List (Entry α)} :
    ∀ {e : Entry α} {r : List (Entry α)}, popMin l = some (e, r) → (e :: r).Perm l := by
  induction l with
  | nil => intro e r h; simp [popMin] at h
  | cons a rest ih =>
    intro e r h
    simp only [popMin] at h
    cases hr : popMin rest with
    | none =>
      rw [hr] at h
      simp only [Option.some.injEq, Prod.mk.injEq] at h
      obtain ⟨rfl, rfl⟩ := h
      have hnil : rest = [] := (popMin_eq_none rest).mp hr
      subst hnil
      exact List.Perm.refl _
    | some p =>
      obtain ⟨m, rest1⟩ := p
      rw [hr] at h
      dsimp only at h
      have hperm : (m :: rest1).Perm rest := ih hr
      by_cases hle : a.priority ≤ m.priority
      · rw [if_pos hle] at h
        simp only [Option.some.injEq, Prod.mk.injEq] at h
        obtain ⟨rfl, rfl⟩ := h
        exact List.Perm.refl _
      · rw [if_neg hle] at h
        simp only [Option.some.injEq, Prod.mk.injEq] at h
        obtain ⟨rfl, rfl⟩ := h
        exact (List.Perm.swap a m rest1).trans (List.Perm.cons a hperm)

theorem popMin_le {α : Type} {l : List (Entry α)} :
    ∀ {e : Entry α} {r : List (Entry α)}, popMin l = some (e, r) →
      ∀ x ∈ r, e.priority ≤ x.priority := by
  induction l with
  | nil => intro e r h; simp [popMin] at h
  | cons a rest ih =>
    intro e r h
    simp only [popMin] at h
    cases hr : popMin rest with
    | none =>
      rw [hr] at h
      simp only [Option.some.injEq, Prod.mk.injEq] at h
      obtain ⟨rfl, rfl⟩ := h
      intro x hx
      simp at hx
    | some p =>
      obtain ⟨m, rest1⟩ := p
      rw [hr] at h
      dsimp only at h
      have hperm : (m :: rest1).Perm rest := popMin_perm hr
      by_cases hle : a.priority ≤ m.priority
      · rw [if_pos hle] at h
        simp only [Option.some.injEq, Prod.mk.injEq] at h
        obtain ⟨rfl, rfl⟩ := h
        intro x hx
        have hx2 : x ∈ m :: rest1 := hperm.mem_iff.mpr hx
        rcases List.mem_cons.mp hx2 with rfl | hx3
        · exact hle
        · exact le_trans hle (ih hr x hx3)
      · rw [if_neg hle] at h
        simp only [Option.some.injEq, Prod.mk.injEq] at h
        obtain ⟨rfl, rfl⟩ := h
        intro x hx
        rcases List.mem_cons.mp hx with rfl | hx3
        · exact le_of_lt (lt_of_not_le hle)
        · exact ih hr x hx3

/-! ### Pruning lemmas -/

theorem removeEdgeHG_n (g : HG) (i j : ℕ) : (removeEdgeHG g i j).n = g.n := rfl

theorem removeEdgeHG_adj (g : HG) (i j a c : ℕ) :
    (removeEdgeHG g i j).adj a c =
      if (a = i ∧ c = j) ∨ (a = j ∧ c = i) then false else g.adj a c := rfl

theorem removeEdgeHG_w (g : HG) (i j a c : ℕ) :
    (removeEdgeHG g i j).w a c =
      if (a = i ∧ c = j) ∨ (a = j ∧ c = i) then 0 else g.w a c := rfl

theorem symmAdj_removeEdge {g : HG} (i j : ℕ) (h : SymmAdj g) :
    SymmAdj (removeEdgeHG g i j) := by
  intro a ha c hc
  rw [removeEdgeHG_adj, removeEdgeHG_adj]
  by_cases h1 : (a = i ∧ c = j) ∨ (a = j ∧ c = i)
  · have h2 : (c = i ∧ a = j) ∨ (c = j ∧ a = i) := by tauto
    rw [if_pos h1, if_pos h2]
  · have h2 : ¬ ((c = i ∧ a = j) ∨ (c = j ∧ a = i)) := by tauto
    rw [if_neg h1, if_neg h2]
    exact h a ha c hc

theorem consist_removeEdge {g : HG} (i j : ℕ) (h : Consist g) :
    Consist (removeEdgeHG g i j) := by
  intro a ha c hc hadj
  rw [removeEdgeHG_adj] at hadj
  rw [removeEdgeHG_w]
  by_cases h1 : (a = i ∧ c = j) ∨ (a = j ∧ c = i)
  · rw [if_pos h1]
  · rw [if_neg h1]
    rw [if_neg h1] at hadj
    exact h a ha c hc hadj

theorem pruneLoop_inv : ∀ (t : ℕ) (g : HG) (pq : List (Entry (ℕ × ℕ))) {g1 : HG},
    pruneLoop g pq t = some g1 → (SymmAdj g → SymmAdj g1) ∧ (Consist g → Consist g1) := by
  intro t
  induction t with
  | zero =>
    intro g pq g1 h
    simp only [pruneLoop, Option.some.injEq] at h
    subst h
    exact ⟨id, id⟩
  | succ t ih =>
    intro g pq g1 h
    simp only [pruneLoop] at h
    cases hpq : popMin pq with
    | none => rw [hpq] at h; exact absurd h (by simp)
    | some p =>
      obtain ⟨e, rest⟩ := p
      rw [hpq] at h
      dsimp only at h
      obtain ⟨h1, h2⟩ := ih (removeEdgeHG g e.item.1 e.item.2) rest h
      exact ⟨fun hs => h1 (symmAdj_removeEdge _ _ hs),
             fun hc => h2 (consist_removeEdge _ _ hc)⟩

theorem numEdges_removeEdge {g : HG} {i j : ℕ} (hj : j < i) (hi : i < g.n)
    (ha : g.adj i j = true) :
    (removeEdgeHG g i j).numEdges = g.numEdges - 1 := by
  have hadjI : ∀ y, (removeEdgeHG g i j).adj i y = if y = j then false else g.adj i y := by
    intro y
    rw [removeEdgeHG_adj]
    by_cases hyj : y = j
    · subst hyj
      simp
    · have hij : i ≠ j := by omega
      simp [hyj, hij]
  have hset : (Finset.range i).filter (fun y => (removeEdgeHG g i j).adj i y = true)
      = ((Finset.range i).filter (fun y => g.adj i y = true)).erase j := by
    ext y
    simp only [Finset.mem_filter, Finset.mem_erase, Finset.mem_range, hadjI]
    by_cases hyj : y = j
    · subst hyj
      simp
    · simp [hyj]
  have hjmem : j ∈ (Finset.range i).filter (fun y => g.adj i y = true) := by
    simp [Finset.mem_filter, Finset.mem_range, hj, ha]
  have hrowI :
      ((Finset.range i).filter (fun y => (removeEdgeHG g i j).adj i y = true)).card
        = ((Finset.range i).filter (fun y => g.adj i y = true)).card - 1 := by
    rw [hset, Finset.card_erase_of_mem hjmem]
  have hposI : 1 ≤ ((Finset.range i).filter (fun y => g.adj i y = true)).card :=
    Finset.card_pos.mpr ⟨j, hjmem⟩
  have hrowEq : ∀ x ∈ (Finset.range g.n).erase i,
      ((Finset.range x).filter (fun y => (removeEdgeHG g i j).adj x y = true)).card
        = ((Finset.range x).filter (fun y => g.adj x y = true)).card := by
    intro x hx
    congr 1
    apply Finset.filter_congr
    intro y hy
    have hxi : x ≠ i := (Finset.mem_erase.mp hx).1
    have hyx : y < x := Finset.mem_range.mp hy
    rw [removeEdgeHG_adj]
    have hcond : ¬ ((x = i ∧ y = j) ∨ (x = j ∧ y = i)) := by
      rintro (⟨rfl, rfl⟩ | ⟨rfl, rfl⟩)
      · exact hxi rfl
      · omega
    rw [if_neg hcond]
  have hmemi : i ∈ Finset.range g.n := Finset.mem_range.mpr hi
  have hold : g.numEdges
      = ∑ x ∈ (Finset.range g.n).erase i,
          ((Finset.range x).filter (fun y => g.adj x y = true)).card
        + ((Finset.range i).filter (fun y => g.adj i y = true)).card :=
    (Finset.sum_erase_add _ _ hmemi).symm
  have hnew : (removeEdgeHG g i j).numEdges
      = ∑ x ∈ (Finset.range g.n).erase i,
          ((Finset.range x).filter (fun y => (removeEdgeHG g i j).adj x y = true)).card
        + ((Finset.range i).filter (fun y => (removeEdgeHG g i j).adj i y = true)).card :=
    (Finset.sum_erase_add _ _ hmemi).symm
  rw [Finset.sum_congr rfl hrowEq] at hnew
  omega

theorem mem_rowPQ {g : HG} {i a b : ℕ} {pr : ℚ} :
    (⟨(a, b), pr⟩ : Entry (ℕ × ℕ)) ∈ rowPQ g i ↔
      a = i ∧ b < i ∧ g.adj i b = true ∧ pr = |g.w i b| := by
  simp only [rowPQ, List.mem_filterMap, List.mem_range]
  constructor
  · rintro ⟨j, hj, hf⟩
    by_cases hadj : g.adj i j = true
    · rw [if_pos hadj] at hf
      simp only [Option.some.injEq, Entry.mk.injEq, Prod.mk.injEq] at hf
      obtain ⟨⟨rfl, rfl⟩, rfl⟩ := hf
      exact ⟨rfl, hj, hadj, rfl⟩
    · rw [if_neg hadj] at hf
      exact absurd hf (by simp)
  · rintro ⟨rfl, hb, hadj, rfl⟩
    exact ⟨b, hb, by rw [if_pos hadj]⟩

theorem mem_edgePQ {g : HG} {e : Entry (ℕ × ℕ)} (h : e ∈ edgePQ g) :
    e.item.2 < e.item.1 ∧ e.item.1 < g.n ∧ g.adj e.item.1 e.item.2 = true := by
  simp only [edgePQ, List.mem_flatten, List.mem_map] at h
  obtain ⟨l, ⟨i, hi, rfl⟩, hel⟩ := h
  obtain ⟨⟨a, b⟩, pr⟩ := e
  rw [mem_rowPQ] at hel
  obtain ⟨rfl, hb, hadj, _⟩ := hel
  exact ⟨hb, List.mem_range.mp hi, hadj⟩

theorem filterMap_ite_length {β : Type} (p : ℕ → Bool) (f : ℕ → β) :
    ∀ m : ℕ,
      ((List.range m).filterMap (fun j => if p j = true then some (f j) else none)).length
        = ((Finset.range m).filter (fun j => p j = true)).card := by
  intro m
  induction m with
  | zero => rfl
  | succ m ih =>
    rw [List.range_succ, List.filterMap_append, List.length_append, ih, Finset.range_succ,
      Finset.filter_insert]
    by_cases hp : p m = true
    · rw [if_pos hp, Finset.card_insert_of_not_mem (by simp)]
      simp [hp]
    · rw [if_neg hp]
      simp [hp]

theorem rowPQ_length (g : HG) (i : ℕ) :
    (rowPQ g i).length = ((Finset.range i).filter (fun j => g.adj i j = true)).card := by
  rw [rowPQ]
  exact filterMap_ite_length (fun j => g.adj i j)
    (fun j => (⟨(i, j), |g.w i j|⟩ : Entry (ℕ × ℕ))) i

theorem edgePQ_length (g : HG) : (edgePQ g).length = g.numEdges := by
  rw [edgePQ, List.length_flatten, List.map_map]
  show ((List.range g.n).map (fun i => (rowPQ g i).length)).sum = g.numEdges
  have h : ((List.range g.n).map (fun i => (rowPQ g i).length)).sum
      = ∑ i ∈ Finset.range g.n, (rowPQ g i).length := rfl
  rw [h]
  exact Finset.sum_congr rfl (fun i _ => rowPQ_length g i)

theorem rowPQ_items_eq (g : HG) (i : ℕ) :
    (rowPQ g i).map (fun e => e.item)
      = (List.range i).filterMap
          (fun j => if g.adj i j = true then some ((i, j) : ℕ × ℕ) else none) := by
  rw [rowPQ, List.map_filterMap]
  apply List.filterMap_congr
  intro j hj
  by_cases hadj : g.adj i j = true
  · rw [if_pos hadj, if_pos hadj]
    rfl
  · rw [if_neg hadj, if_neg hadj]
    rfl

theorem rowPQ_items_nodup (g : HG) (i : ℕ) :
    ((rowPQ g i).map (fun e => e.item)).Nodup := by
  rw [rowPQ_items_eq]
  apply List.Nodup.filterMap ?_ (List.nodup_range i)
  intro a b q hqa hqb
  by_cases hA : g.adj i a = true
  · by_cases hB : g.adj i b = true
    · rw [if_pos hA, Option.mem_def] at hqa
      rw [if_pos hB, Option.mem_def] at hqb
      injection hqa with h1
      injection hqb with h2
      rw [← h1] at h2
      exact ((Prod.ext_iff.mp h2).2).symm
    · rw [if_neg hB] at hqb
      exact absurd hqb (by simp)
  · rw [if_neg hA] at hqa
    exact absurd hqa (by simp)

theorem mem_rowPQ_items {g : HG} {i : ℕ} {q : ℕ × ℕ}
    (h : q ∈ (rowPQ g i).map (fun e => e.item)) : q.1 = i := by
  rw [rowPQ_items_eq] at h
  simp only [List.mem_filterMap, List.mem_range] at h
  obtain ⟨j, hj, hf⟩ := h
  by_cases hadj : g.adj i j = true
  · rw [if_pos hadj] at hf
    injection hf with h1
    rw [← h1]
  · rw [if_neg hadj] at hf
    exact absurd hf (by simp)

theorem edgePQ_items_nodup (g : HG) : ((edgePQ g).map (fun e => e.item)).Nodup := by
  rw [edgePQ, List.map_flatten, List.map_map]
  rw [List.nodup_flatten]
  constructor
  · intro l hl
    simp only [List.mem_map, List.mem_range, Function.comp] at hl
    obtain ⟨i, hi, rfl⟩ := hl
    exact rowPQ_items_nodup g i
  · rw [List.pairwise_map]
    apply List.Pairwise.imp ?_ (List.pairwise_lt_range g.n)
    intro a b hab q hqa hqb
    have h1 : q.1 = a := mem_rowPQ_items hqa
    have h2 : q.1 = b := mem_rowPQ_items hqb
    omega

theorem pruneLoop_count : ∀ (t : ℕ) (g : HG) (pq : List (Entry (ℕ × ℕ))),
    (∀ e ∈ pq, e.item.2 < e.item.1 ∧ e.item.1 < g.n ∧ g.adj e.item.1 e.item.2 = true) →
    (pq.map (fun e => e.item)).Nodup →
    pq.length = g.numEdges →
    t ≤ pq.length →
    ∃ g1, pruneLoop g pq t = some g1 ∧ g1.numEdges = g.numEdges - t ∧ g1.n = g.n := by
  intro t
  induction t with
  | zero =>
    intro g pq _ _ _ _
    exact ⟨g, rfl, by simp, rfl⟩
  | succ t ih =>
    intro g pq hmem hnodup hlen hle
    have hne : pq ≠ [] := by
      intro h
      subst h
      simp at hle
    obtain ⟨p, hpq⟩ : ∃ p, popMin pq = some p := by
      cases hp : popMin pq with
      | none => exact absurd ((popMin_eq_none pq).mp hp) hne
      | some p => exact ⟨p, rfl⟩
    obtain ⟨e, rest⟩ := p
    have hperm : (e :: rest).Perm pq := popMin_perm hpq
    have hein : e ∈ pq := hperm.subset (List.mem_cons_self e rest)
    obtain ⟨hj, hi, hadj⟩ := hmem e hein
    have hne1 : (removeEdgeHG g e.item.1 e.item.2).numEdges = g.numEdges - 1 :=
      numEdges_removeEdge hj hi hadj
    have hnodup2 : ((e :: rest).map (fun x => x.item)).Nodup :=
      ((hperm.map (fun x => x.item)).nodup_iff).mpr hnodup
    rw [List.map_cons, List.nodup_cons] at hnodup2
    obtain ⟨henotin, hrestnodup⟩ := hnodup2
    have hlen2 : rest.length + 1 = pq.length := by
      have := hperm.length_eq
      simpa using this
    have hrestmem : ∀ x ∈ rest,
        x.item.2 < x.item.1 ∧ x.item.1 < (removeEdgeHG g e.item.1 e.item.2).n ∧
          (removeEdgeHG g e.item.1 e.item.2).adj x.item.1 x.item.2 = true := by
      intro x hx
      have hxin : x ∈ pq := hperm.subset (List.mem_cons_of_mem e hx)
      obtain ⟨hxj, hxi, hxadj⟩ := hmem x hxin
      refine ⟨hxj, hxi, ?_⟩
      rw [removeEdgeHG_adj]
      have hxne : x.item ≠ e.item := by
        intro hcontra
        apply henotin
        rw [← hcontra]
        exact List.mem_map_of_mem (fun y => y.item) hx
      have hcond : ¬ ((x.item.1 = e.item.1 ∧ x.item.2 = e.item.2) ∨
          (x.item.1 = e.item.2 ∧ x.item.2 = e.item.1)) := by
        rintro (⟨h1, h2⟩ | ⟨h1, h2⟩)
        · exact hxne (Prod.ext_iff.mpr ⟨h1, h2⟩)
        · omega
      rw [if_neg hcond]
      exact hxadj
    have hlen3 : rest.length = (removeEdgeHG g e.item.1 e.item.2).numEdges := by
      rw [hne1]
      omega
    have hle2 : t ≤ rest.length := by omega
    obtain ⟨g2, heq, hcount, hn⟩ :=
      ih (removeEdgeHG g e.item.1 e.item.2) rest hrestmem hrestnodup hlen3 hle2
    refine ⟨g2, ?_, ?_, ?_⟩
    · simp only [pruneLoop, hpq]
      exact heq
    · rw [hcount, hne1]
      omega
    · rw [hn]
      rfl

theorem pruneLoop_overrun : ∀ (t : ℕ) (g : HG) (pq : List (Entry (ℕ × ℕ))),
    pq.length < t → pruneLoop g pq t = none := by
  intro t
  induction t with
  | zero =>
    intro g pq h
    exact absurd h (Nat.not_lt_zero _)
  | succ t ih =>
    intro g pq h
    cases hpq : popMin pq with
    | none => simp [pruneLoop, hpq]
    | some p =>
      obtain ⟨e, rest⟩ := p
      have hperm : (e :: rest).Perm pq := popMin_perm hpq
      have hlen : rest.length + 1 = pq.length := by simpa using hperm.length_eq
      simp only [pruneLoop, hpq]
      exact ih _ rest (by omega)

/-! ### Constructor invariant lemmas -/

theorem setAdj_adj (g : HG) (i j a c : ℕ) (b : Bool) :
    (g.setAdj i j b).adj a c =
      if (a = i ∧ c = j) ∨ (a = j ∧ c = i) then b else g.adj a c := rfl

theorem makeEdge_adj (patterns : List (List ℕ)) (g : HG) (i j a c : ℕ) :
    (makeEdge patterns g i j).adj a c =
      if (a = i ∧ c = j) ∨ (a = j ∧ c = i) then true else g.adj a c := rfl

theorem makeEdge_w (patterns : List (List ℕ)) (g : HG) (i j a c : ℕ) :
    (makeEdge patterns g i j).w a c =
      if (a = i ∧ c = j) ∨ (a = j ∧ c = i) then hebb patterns i j else g.w a c := rfl

theorem symmAdj_setAdj {g : HG} (i j : ℕ) (b : Bool) (h : SymmAdj g) :
    SymmAdj (g.setAdj i j b) := by
  intro a ha c hc
  rw [setAdj_adj, setAdj_adj]
  by_cases h1 : (a = i ∧ c = j) ∨ (a = j ∧ c = i)
  · have h2 : (c = i ∧ a = j) ∨ (c = j ∧ a = i) := by tauto
    rw [if_pos h1, if_pos h2]
  · have h2 : ¬ ((c = i ∧ a = j) ∨ (c = j ∧ a = i)) := by tauto
    rw [if_neg h1, if_neg h2]
    exact h a ha c hc

theorem consist_setAdjTrue {g : HG} (i j : ℕ) (h : Consist g) :
    Consist (g.setAdj i j true) := by
  intro a ha c hc hadj
  rw [setAdj_adj] at hadj
  by_cases h1 : (a = i ∧ c = j) ∨ (a = j ∧ c = i)
  · rw [if_pos h1] at hadj
    exact absurd hadj (by simp)
  · rw [if_neg h1] at hadj
    exact h a ha c hc hadj

theorem symmAdj_makeEdge {g : HG} (patterns : List (List ℕ)) (i j : ℕ) (h : SymmAdj g) :
    SymmAdj (makeEdge patterns g i j) := by
  intro a ha c hc
  rw [makeEdge_adj, makeEdge_adj]
  by_cases h1 : (a = i ∧ c = j) ∨ (a = j ∧ c = i)
  · have h2 : (c = i ∧ a = j) ∨ (c = j ∧ a = i) := by tauto
    rw [if_pos h1, if_pos h2]
  · have h2 : ¬ ((c = i ∧ a = j) ∨ (c = j ∧ a = i)) := by tauto
    rw [if_neg h1, if_neg h2]
    exact h a ha c hc

theorem consist_makeEdge {g : HG} (patterns : List (List ℕ)) (i j : ℕ) (h : Consist g) :
    Consist (makeEdge patterns g i j) := by
  intro a ha c hc hadj
  rw [makeEdge_adj] at hadj
  rw [makeEdge_w]
  by_cases h1 : (a = i ∧ c = j) ∨ (a = j ∧ c = i)
  · rw [if_pos h1] at hadj
    exact absurd hadj (by simp)
  · rw [if_neg h1] at hadj
    rw [if_neg h1]
    exact h a ha c hc hadj

theorem foldl_preserve {β : Type} (P : HG → Prop) (step : HG → β → HG)
    (hstep : ∀ g b, P g → P (step g b)) :
    ∀ (l : List β) (g : HG), P g → P (l.foldl step g) := by
  intro l
  induction l with
  | nil => intro g h; exact h
  | cons b rest ih =>
    intro g h
    exact ih _ (hstep g b h)

theorem symmAdj_trainAll (patterns : List (List ℕ)) {g : HG} (h : SymmAdj g) :
    SymmAdj (trainAll patterns g) := h

theorem consist_trainAll (patterns : List (List ℕ)) (g : HG) :
    Consist (trainAll patterns g) := by
  intro a ha c hc hadj
  show (if g.adj a c then hebb patterns a c else 0) = 0
  have : g.adj a c = false := hadj
  simp [this]

theorem symmAdj_emptyHG (N : ℕ) : SymmAdj (emptyHG N) := by
  intro a _ c _
  rfl

theorem consist_emptyHG (N : ℕ) : Consist (emptyHG N) := by
  intro a _ c _ _
  rfl

theorem buildLattice_inv (patterns : List (List ℕ)) (N : ℕ) (nbrs : List (List ℕ))
    (inter : Bool) :
    SymmAdj (buildLattice patterns N nbrs inter) ∧ Consist (buildLattice patterns N nbrs inter) := by
  rw [buildLattice]
  apply foldl_preserve (fun g => SymmAdj g ∧ Consist g)
  · intro g i hg
    rw [latticeRow]
    apply foldl_preserve (fun g1 => SymmAdj g1 ∧ Consist g1)
    · intro g1 j hg1
      by_cases hc : inter = true ∧ i ∉ nbrs.getD j []
      · rw [if_pos hc]
        exact hg1
      · rw [if_neg hc]
        exact ⟨symmAdj_makeEdge patterns i j hg1.1, consist_makeEdge patterns i j hg1.2⟩
    · exact hg
  · exact ⟨symmAdj_trainAll patterns (symmAdj_emptyHG N), consist_trainAll patterns (emptyHG N)⟩

theorem sbmGenerate_inv (keys states : List (List ℕ)) (p1 : List ℕ → List ℕ → ℚ)
    (u : ℕ → ℕ → ℚ) (N : ℕ) :
    SymmAdj (sbmGenerate keys states p1 u N) ∧ Consist (sbmGenerate keys states p1 u N) := by
  rw [sbmGenerate]
  apply foldl_preserve (fun g => SymmAdj g ∧ Consist g)
  · intro g i hg
    apply foldl_preserve (fun g1 => SymmAdj g1 ∧ Consist g1)
    · intro g1 j hg1
      by_cases hc : u i j < p1 (canonSig keys states i) (canonSig keys states j)
      · rw [if_pos hc]
        exact ⟨symmAdj_setAdj i j true hg1.1, consist_setAdjTrue i j hg1.2⟩
      · rw [if_neg hc]
        exact hg1
    · exact hg
  · exact ⟨symmAdj_emptyHG N, consist_emptyHG N⟩

/-! ### Lattice monotonicity lemmas (C7) -/

theorem makeEdge_adjLE (patterns : List (List ℕ)) (g : HG) (i j : ℕ) :
    AdjLE g (makeEdge patterns g i j) := by
  intro a c h
  rw [makeEdge_adj]
  by_cases h1 : (a = i ∧ c = j) ∨ (a = j ∧ c = i)
  · rw [if_pos h1]
  · rw [if_neg h1]
    exact h

theorem makeEdge_mono (patterns : List (List ℕ)) {g1 g2 : HG} (i j : ℕ)
    (h : AdjLE g1 g2) : AdjLE (makeEdge patterns g1 i j) (makeEdge patterns g2 i j) := by
  intro a c hac
  rw [makeEdge_adj] at hac
  rw [makeEdge_adj]
  by_cases h1 : (a = i ∧ c = j) ∨ (a = j ∧ c = i)
  · rw [if_pos h1]
  · rw [if_neg h1] at hac
    rw [if_neg h1]
    exact h a c hac

theorem latticeRow_mono (patterns : List (List ℕ)) (nbrs : List (List ℕ)) (i : ℕ) :
    ∀ (js : List ℕ) (gT gF : HG), AdjLE gT gF →
      AdjLE (js.foldl (fun g1 j =>
          if (true : Bool) = true ∧ i ∉ nbrs.getD j [] then g1
          else makeEdge patterns g1 i j) gT)
        (js.foldl (fun g1 j =>
          if (false : Bool) = true ∧ i ∉ nbrs.getD j [] then g1
          else makeEdge patterns g1 i j) gF) := by
  intro js
  induction js with
  | nil => intro gT gF h; exact h
  | cons j rest ih =>
    intro gT gF h
    apply ih
    dsimp only
    have hF : ¬ ((false : Bool) = true ∧ i ∉ nbrs.getD j []) := by simp
    rw [if_neg hF]
    by_cases hT : (true : Bool) = true ∧ i ∉ nbrs.getD j []
    · rw [if_pos hT]
      exact fun a c hac => makeEdge_adjLE patterns gF i j a c (h a c hac)
    · rw [if_neg hT]
      exact makeEdge_mono patterns i j h

theorem buildLattice_mono (patterns : List (List ℕ)) (N : ℕ) (nbrs : List (List ℕ)) :
    AdjLE (buildLattice patterns N nbrs true) (buildLattice patterns N nbrs false) := by
  rw [buildLattice, buildLattice]
  have hgen : ∀ (is : List ℕ) (gT gF : HG), AdjLE gT gF →
      AdjLE (is.foldl (fun g i => latticeRow patterns nbrs true i g) gT)
        (is.foldl (fun g i => latticeRow patterns nbrs false i g) gF) := by
    intro is
    induction is with
    | nil => intro gT gF h; exact h
    | cons i rest ih =>
      intro gT gF h
      apply ih
      dsimp only
      rw [latticeRow, latticeRow]
      exact latticeRow_mono patterns nbrs i (nbrs.getD i []) gT gF h
  exact hgen (List.range N) _ _ (fun a c h => h)

theorem buildLattice_n (patterns : List (List ℕ)) (N : ℕ) (nbrs : List (List ℕ))
    (inter : Bool) : (buildLattice patterns N nbrs inter).n = N := by
  rw [buildLattice]
  have hgen : ∀ (is : List ℕ) (g : HG), g.n = N →
      ((is.foldl (fun g i => latticeRow patterns nbrs inter i g) g)).n = N := by
    intro is
    induction is with
    | nil => intro g h; exact h
    | cons i rest ih =>
      intro g h
      apply ih
      dsimp only
      rw [latticeRow]
      have hrow : ∀ (js : List ℕ) (g1 : HG), g1.n = N →
          ((js.foldl (fun g2 j =>
            if inter = true ∧ i ∉ nbrs.getD j [] then g2
            else makeEdge patterns g2 i j) g1)).n = N := by
        intro js
        induction js with
        | nil => intro g1 h1; exact h1
        | cons j rest2 ih2 =>
          intro g1 h1
          apply ih2
          dsimp only
          by_cases hc : inter = true ∧ i ∉ nbrs.getD j []
          · rw [if_pos hc]
            exact h1
          · rw [if_neg hc]
            exact h1
      exact hrow _ g h
  exact hgen (List.range N) _ rfl

theorem numEdges_mono {g1 g2 : HG} (hn : g1.n = g2.n) (h : AdjLE g1 g2) :
    g1.numEdges ≤ g2.numEdges := by
  rw [HG.numEdges, HG.numEdges, hn]
  apply Finset.sum_le_sum
  intro i _
  apply Finset.card_le_card
  intro j hj
  rw [Finset.mem_filter] at hj ⊢
  exact ⟨hj.1, h i j hj.2⟩

/-! ### Nearest-neighbor selection lemmas (C6) -/

theorem countP_ne_range (i N : ℕ) (hi : i < N) :
    (List.range N).countP (fun j => decide (j ≠ i)) = N - 1 := by
  induction N with
  | zero => exact absurd hi (Nat.not_lt_zero i)
  | succ N ihN =>
    rw [List.range_succ, List.countP_append]
    by_cases hiN : i = N
    · subst hiN
      have hall : ∀ a ∈ List.range i, (fun j => decide (j ≠ i)) a = true := by
        intro a ha
        have := List.mem_range.mp ha
        simp only [decide_eq_true_eq]
        omega
      have h1 : (List.range i).countP (fun j => decide (j ≠ i)) = i := by
        rw [List.countP_eq_length.mpr hall, List.length_range]
      have h2 : ([i] : List ℕ).countP (fun j => decide (j ≠ i)) = 0 := by
        simp [List.countP_cons]
      omega
    · have hi2 : i < N := by omega
      have hNi : N ≠ i := by omega
      have h2 : ([N] : List ℕ).countP (fun j => decide (j ≠ i)) = 1 := by
        simp [List.countP_cons, hNi]
      rw [ihN hi2]
      omega

theorem popK_excludes (bad : ℕ) : ∀ (t : ℕ) (pq : List (Entry ℕ)),
    (∀ e ∈ pq, e.item = bad → e.priority = 0) →
    (∀ e ∈ pq, e.item ≠ bad → e.priority < 0) →
    t ≤ pq.countP (fun e => decide (e.item ≠ bad)) →
    (popK t pq).elim False (fun l => bad ∉ l) := by
  intro t
  induction t with
  | zero =>
    intro pq _ _ _
    simp [popK]
  | succ t ih =>
    intro pq hbad hneg hle
    have hpos : 0 < pq.countP (fun e => decide (e.item ≠ bad)) := by omega
    obtain ⟨x, hx, hxp⟩ := List.countP_pos_iff.mp hpos
    have hxbad : x.item ≠ bad := by simpa using hxp
    have hxneg : x.priority < 0 := hneg x hx hxbad
    have hne : pq ≠ [] := by
      intro h
      subst h
      simp at hx
    obtain ⟨p, hpq⟩ : ∃ p, popMin pq = some p := by
      cases hp : popMin pq with
      | none => exact absurd ((popMin_eq_none pq).mp hp) hne
      | some p => exact ⟨p, rfl⟩
    obtain ⟨e, rest⟩ := p
    have hperm : (e :: rest).Perm pq := popMin_perm hpq
    have hein : e ∈ pq := hperm.subset (List.mem_cons_self e rest)
    have hele : e.priority ≤ x.priority := by
      have hx2 : x ∈ e :: rest := hperm.mem_iff.mpr hx
      rcases List.mem_cons.mp hx2 with h1 | h3
      · rw [h1]
      · exact popMin_le hpq x h3
    have heneg : e.priority < 0 := lt_of_le_of_lt hele hxneg
    have hebad : e.item ≠ bad := by
      intro hcontra
      have h0 := hbad e hein hcontra
      rw [h0] at heneg
      exact absurd heneg (lt_irrefl 0)
    have hbad2 : ∀ y ∈ rest, y.item = bad → y.priority = 0 :=
      fun y hy => hbad y (hperm.subset (List.mem_cons_of_mem e hy))
    have hneg2 : ∀ y ∈ rest, y.item ≠ bad → y.priority < 0 :=
      fun y hy => hneg y (hperm.subset (List.mem_cons_of_mem e hy))
    have hcount : pq.countP (fun e => decide (e.item ≠ bad))
        = rest.countP (fun e => decide (e.item ≠ bad)) + 1 := by
      rw [← hperm.countP_eq]
      rw [List.countP_cons]
      simp [hebad]
    have hle2 : t ≤ rest.countP (fun e => decide (e.item ≠ bad)) := by omega
    have hrec := ih rest hbad2 hneg2 hle2
    simp only [popK, hpq]
    cases hres : popK t rest with
    | none =>
      rw [hres] at hrec
      exact hrec
    | some l =>
      rw [hres] at hrec
      have hrec2 : bad ∉ l := hrec
      show bad ∉ e.item :: l
      intro hmem
      rcases List.mem_cons.mp hmem with h1 | h2
      · exact hebad h1.symm
      · exact hrec2 h2

theorem fullWeights_self (patterns : List (List ℕ)) (i : ℕ) :
    fullWeights patterns i i = 0 := by
  rw [fullWeights, if_pos rfl]

/-- C6 counterexample: with stored patterns `[[0,0],[0,1]]` every trained
weight is 0, so all candidate priorities tie at 0 and node 0's single
nearest-neighbor pop returns node 0 itself (the heap root), producing a
self-loop: the lattice graph has `adj[0][0] = 1`. -/
theorem lattice_self_loop_counterexample :
    (hopfieldLattice [[0, 0], [0, 1]] 1 false).map (fun g => g.adj 0 0) = some true := by
  have h01 : fullWeights [[0, 0], [0, 1]] 0 1 = 0 := by
    rw [fullWeights]
    norm_num [hebb, bip]
  have h10 : fullWeights [[0, 0], [0, 1]] 1 0 = 0 := by
    rw [fullWeights]
    norm_num [hebb, bip]
  have hn0 : nodeNeighbors [[0, 0], [0, 1]] 2 1 0 = some [0] := by
    rw [nodeNeighbors, nodePQ, show List.range 2 = [0, 1] from rfl]
    simp only [List.map_cons, List.map_nil, h01, fullWeights_self, abs_zero, neg_zero]
    norm_num [popK, popMin]
  have hn1 : nodeNeighbors [[0, 0], [0, 1]] 2 1 1 = some [0] := by
    rw [nodeNeighbors, nodePQ, show List.range 2 = [0, 1] from rfl]
    simp only [List.map_cons, List.map_nil, h10, fullWeights_self, abs_zero, neg_zero]
    norm_num [popK, popMin]
  have hnn : nearestNeighbors [[0, 0], [0, 1]] 2 1 = some [[0], [0]] := by
    rw [nearestNeighbors, show List.range 2 = [0, 1] from rfl]
    simp only [List.map_cons, List.map_nil, hn0, hn1]
    rfl
  show (Option.map (fun g => g.adj 0 0)
    (Option.map (fun nbrs => buildLattice [[0, 0], [0, 1]] 2 nbrs false)
      (nearestNeighbors [[0, 0], [0, 1]] 2 1))) = some true
  rw [hnn]
  show some ((buildLattice [[0, 0], [0, 1]] 2 [[0], [0]] false).adj 0 0) = some true
  decide

/-- C6 (amended): node `i` is itself a candidate in its own selection queue
(`for j in range(N)` includes `j = i`) with priority `-|W[i][i]| = 0`, the
weakest possible; it is excluded from the selected set only because every
strictly smaller priority pops first: if all other trained weights of `i`
are nonzero and `k < N`, then `i` never selects itself; with zero-magnitude
ties `i` can be selected, creating a self-loop. -/
theorem nodeNeighbors_no_self (patterns : List (List ℕ)) (N k i : ℕ) (hi : i < N)
    (hk : k < N) (hw : ∀ j, j < N → j ≠ i → fullWeights patterns i j ≠ 0) :
    (nodeNeighbors patterns N k i).elim False (fun l => i ∉ l) := by
  rw [nodeNeighbors]
  apply popK_excludes i k (nodePQ patterns N i)
  · intro e he hei
    simp only [nodePQ, List.mem_map, List.mem_range] at he
    obtain ⟨j, hj, rfl⟩ := he
    have hji : j = i := hei
    subst hji
    show -|fullWeights patterns j j| = 0
    rw [fullWeights_self]
    simp
  · intro e he hei
    simp only [nodePQ, List.mem_map, List.mem_range] at he
    obtain ⟨j, hj, rfl⟩ := he
    have hji : j ≠ i := hei
    show -|fullWeights patterns i j| < 0
    exact neg_lt_zero.mpr (abs_pos.mpr (hw j hj hji))
  · rw [nodePQ, List.countP_map]
    show k ≤ (List.range N).countP (fun j => decide (j ≠ i))
    rw [countP_ne_range i N hi]
    omega

/-- Witness for the amended C6 at a concrete input: one stored pattern
`[0,1]` gives the single other node a nonzero weight, so node 0 does not
select itself. -/
theorem nodeNeighbors_no_self_witness :
    (nodeNeighbors [[0, 1]] 2 1 0).elim False (fun l => 0 ∉ l) :=
  nodeNeighbors_no_self [[0, 1]] 2 1 0 (by norm_num) (by norm_num)
    (by
      intro j hj hji
      interval_cases j
      · exact absurd rfl hji
      · rw [fullWeights]
        norm_num [hebb, bip])

/-! ### Block-model probability lemmas (C8, C10) -/

theorem updateLoop_not_mem (ratio : ℚ) : ∀ (pairs : List (List ℕ × List ℕ))
    (p : List ℕ → List ℕ → ℚ) (a b : List ℕ), (a, b) ∉ pairs →
    updateLoop ratio pairs p a b = p a b := by
  intro pairs
  induction pairs with
  | nil => intro p a b _; rfl
  | cons q rest ih =>
    intro p a b h
    rw [updateLoop]
    rw [ih _ a b (fun hm => h (List.mem_cons_of_mem q hm))]
    have hc : ¬ (a = q.1 ∧ b = q.2) := by
      rintro ⟨rfl, rfl⟩
      exact h (List.mem_cons_self q rest)
    rw [if_neg hc]

theorem updateLoop_mem (ratio : ℚ) : ∀ (pairs : List (List ℕ × List ℕ))
    (p : List ℕ → List ℕ → ℚ) (a b : List ℕ), pairs.Nodup → (a, b) ∈ pairs →
    updateLoop ratio pairs p a b = ratio * p a b := by
  intro pairs
  induction pairs with
  | nil =>
    intro p a b _ h
    simp at h
  | cons q rest ih =>
    intro p a b hnodup hmem
    rw [updateLoop]
    rw [List.nodup_cons] at hnodup
    rcases List.mem_cons.mp hmem with h1 | h2
    · have hnot : (a, b) ∉ rest := by
        rw [h1]
        exact hnodup.1
      rw [updateLoop_not_mem ratio rest _ a b hnot]
      have hc : a = q.1 ∧ b = q.2 :=
        ⟨congrArg Prod.fst h1, congrArg Prod.snd h1⟩
      rw [if_pos hc]
    · rw [ih _ a b hnodup.2 h2]
      have hc : ¬ (a = q.1 ∧ b = q.2) := by
        rintro ⟨rfl, rfl⟩
        exact hnodup.1 h2
      rw [if_neg hc]

theorem mem_pairList {keys : List (List ℕ)} {a b : List ℕ} :
    (a, b) ∈ pairList keys ↔ a ∈ keys ∧ b ∈ keys := by
  simp only [pairList, List.mem_flatten, List.mem_map]
  constructor
  · rintro ⟨l, ⟨x, hx, rfl⟩, hab⟩
    simp only [List.mem_map] at hab
    obtain ⟨y, hy, hxy⟩ := hab
    obtain ⟨rfl, rfl⟩ : x = a ∧ y = b :=
      ⟨congrArg Prod.fst hxy, congrArg Prod.snd hxy⟩
    exact ⟨hx, hy⟩
  · rintro ⟨ha, hb⟩
    exact ⟨(keys.map (fun y => (a, y))), ⟨a, ha, rfl⟩,
      List.mem_map_of_mem (fun y => (a, y)) hb⟩

theorem pairList_nodup {keys : List (List ℕ)} (h : keys.Nodup) : (pairList keys).Nodup := by
  rw [pairList, List.nodup_flatten]
  constructor
  · intro l hl
    simp only [List.mem_map] at hl
    obtain ⟨x, hx, rfl⟩ := hl
    exact h.map (fun y1 y2 hy => congrArg Prod.snd hy)
  · rw [List.pairwise_map]
    apply List.Pairwise.imp ?_ h
    intro x1 x2 hne q hq1 hq2
    simp only [List.mem_map] at hq1 hq2
    obtain ⟨y1, _, rfl⟩ := hq1
    obtain ⟨y2, _, h2⟩ := hq2
    exact hne (congrArg Prod.fst h2.symm)

theorem expectedLoop_eq_sum (size : List ℕ → ℕ) (p : List ℕ → List ℕ → ℚ) :
    ∀ (pairs seen : List (List ℕ × List ℕ)), pairs.Nodup → (∀ q ∈ pairs, q ∉ seen) →
    expectedLoop size p seen pairs
      = (pairs.map (fun q => (size q.1 : ℚ) * (size q.2 : ℚ) * p q.1 q.2)).sum := by
  intro pairs
  induction pairs with
  | nil => intro seen _ _; rfl
  | cons q rest ih =>
    intro seen hnodup hdis
    rw [expectedLoop, if_neg (hdis q (List.mem_cons_self q rest))]
    rw [List.nodup_cons] at hnodup
    rw [ih (q :: seen) hnodup.2 ?_]
    · rw [List.map_cons, List.sum_cons]
    · intro x hx hmem
      rcases List.mem_cons.mp hmem with h1 | h2
      · exact hnodup.1 (h1 ▸ hx)
      · exact hdis x (List.mem_cons_of_mem q hx) h2

theorem pairList_map_sum (keys : List (List ℕ)) (F : List ℕ × List ℕ → ℚ) :
    ((pairList keys).map F).sum
      = (keys.map (fun a => ((keys.map (fun b => F (a, b))).sum))).sum := by
  rw [pairList, List.map_flatten, List.sum_flatten, List.map_map, List.map_map]
  congr 1
  apply List.map_congr_left
  intro a _
  rw [Function.comp_apply, Function.comp_apply, List.map_map]
  rfl

theorem sum_sig_fiber (keys : List (List ℕ)) (hk : keys.Nodup) (sig : ℕ → List ℕ)
    (N : ℕ) (hsig : ∀ i < N, sig i ∈ keys) (f : List ℕ → ℚ) :
    ∑ i ∈ Finset.range N, f (sig i)
      = (keys.map (fun s =>
          ((((List.range N).filter (fun i => sig i = s)).length : ℚ) * f s))).sum := by
  rw [← List.sum_toFinset _ hk]
  rw [← Finset.sum_fiberwise_of_maps_to
    (fun i hi => List.mem_toFinset.mpr (hsig i (Finset.mem_range.mp hi))) (fun i => f (sig i))]
  apply Finset.sum_congr rfl
  intro b _
  have hterm : ∀ i ∈ (Finset.range N).filter (fun i => sig i = b), f (sig i) = f b := by
    intro i hi
    rw [(Finset.mem_filter.mp hi).2]
  rw [Finset.sum_congr rfl hterm, Finset.sum_const, nsmul_eq_mul]
  rfl

theorem double_sum_eq (f : ℕ → ℕ → ℚ) (hsymm : ∀ i j, f i j = f j i) (N : ℕ) :
    ∑ i ∈ Finset.range N, ∑ j ∈ Finset.range N, f i j
      = 2 * (∑ i ∈ Finset.range N, ∑ j ∈ Finset.range i, f i j)
        + ∑ i ∈ Finset.range N, f i i := by
  induction N with
  | zero => simp
  | succ N ih =>
    have hswap : ∑ i ∈ Finset.range N, f i N = ∑ i ∈ Finset.range N, f N i :=
      Finset.sum_congr rfl (fun i _ => hsymm i N)
    simp only [Finset.sum_range_succ]
    rw [Finset.sum_add_distrib, ih, hswap]
    ring

theorem expectedEdgesCode_eq (keys : List (List ℕ)) (hk : keys.Nodup)
    (size : List ℕ → ℕ) (p : List ℕ → List ℕ → ℚ) :
    expectedEdgesCode keys size p
      = (keys.map (fun a => ((keys.map (fun b =>
          (size a : ℚ) * (size b : ℚ) * p a b)).sum))).sum := by
  rw [expectedEdgesCode, expectedLoop_eq_sum size p (pairList keys) [] (pairList_nodup hk)
    (fun q _ hq => by simp at hq)]
  rw [pairList_map_sum]

/-! ### Claims C8 and C10 -/

/-- C10: `hopfield_sbm` mutates the caller-supplied `edge_probs` table in
place — after the call, every entry of the table (every ordered key pair)
has been multiplied by the rescale factor `2*num_edges/expected_edges`, so
the input probability table is not preserved.  In this pure embedding the
mutated table is the second component of the result. -/
theorem sbm_mutates_probs (keys : List (List ℕ)) (p : List ℕ → List ℕ → ℚ)
    (states : List (List ℕ)) (numEdges : ℕ) (u : ℕ → ℕ → ℚ) (hk : keys.Nodup)
    (a b : List ℕ) (ha : a ∈ keys) (hb : b ∈ keys) :
    (hopfieldSbm keys p states numEdges u).2 a b
      = adjustRatio keys (groupSize keys states (states.headD []).length) numEdges p
          * p a b := by
  show adjustProbs keys (groupSize keys states (states.headD []).length) numEdges p a b = _
  rw [adjustProbs]
  exact updateLoop_mem _ _ p a b (pairList_nodup hk) (mem_pairList.mpr ⟨ha, hb⟩)

/-- Witness for C10 at a concrete input: single group, probability 1,
target 1 edge; the returned table holds the rescaled entry. -/
theorem sbm_mutates_probs_witness :
    (hopfieldSbm [[0]] (fun _ _ => 1) [[0, 0]] 1 (fun _ _ => 1)).2 [0] [0]
      = adjustRatio [[0]] (groupSize [[0]] [[0, 0]] 2) 1 (fun _ _ => 1) * 1 :=
  sbm_mutates_probs [[0]] (fun _ _ => 1) [[0, 0]] 1 (fun _ _ => 1) (by decide)
    [0] [0] (by decide) (by decide)

/-- C8 counterexample: one group of 2 nodes, input probability 1, target 1
edge.  The code's `expected_edges` is `2*2*1 = 4` (self-pairs counted
`|group|²` times, the `considered_pairs` check skips nothing), the rescale
factor is `2*1/4 = 1/2`, and the expected undirected edge count under the
rescaled table is `C(2,2)·(1/2) = 1/2 ≠ 1`: the rescaling does NOT make the
expected total equal the target. -/
theorem adjustProbs_expected_counterexample :
    expectedUndirected [[0]] [[0, 0]] 2
      (adjustProbs [[0]] (groupSize [[0]] [[0, 0]] 2) 1 (fun _ _ => 1)) ≠ 1 := by
  have h3 : expectedEdgesCode [[0]] (groupSize [[0]] [[0, 0]] 2) (fun _ _ => 1) = 4 := by
    rw [expectedEdgesCode, pairList]
    norm_num [expectedLoop, show groupSize [[0]] [[0, 0]] 2 [0] = 2 from rfl]
  have h4 : adjustProbs [[0]] (groupSize [[0]] [[0, 0]] 2) 1 (fun _ _ => 1) [0] [0]
      = 1 / 2 := by
    rw [adjustProbs, h3, pairList]
    norm_num [updateLoop]
  rw [expectedUndirected]
  rw [show Finset.range 2 = {0, 1} from rfl]
  rw [Finset.sum_insert (by decide), Finset.sum_singleton]
  rw [show Finset.range 0 = (∅ : Finset ℕ) from rfl, Finset.sum_empty]
  rw [show Finset.range 1 = {0} from rfl, Finset.sum_singleton]
  rw [show canonSig [[0]] [[0, 0]] 1 = [0] from rfl,
    show canonSig [[0]] [[0, 0]] 0 = [0] from rfl]
  rw [h4]
  norm_num

/-- C8 (amended): every table entry is rescaled by the single global factor
`2*target/expected_edges`, but `expected_edges` sums over all ordered group
pairs, counting self-pairs `|group|²` times (the `considered_pairs`
deduplication never skips anything).  The expected undirected edge count
under the rescaled probabilities equals the target when the table is
symmetric and all within-group probabilities are zero (and the expected
count is nonzero); with nonzero within-group probabilities it differs
(counterexample: single group of two nodes gives `1/2` instead of `1`). -/
theorem sum_map_mul_left (c : ℚ) (l : List (List ℕ)) (f : List ℕ → ℚ) :
    c * (l.map f).sum = (l.map (fun x => c * f x)).sum := by
  induction l with
  | nil => simp
  | cons x rest ih => simp [List.map_cons, List.sum_cons, mul_add, ih]

theorem adjustProbs_expected (keys states : List (List ℕ)) (N T : ℕ)
    (p : List ℕ → List ℕ → ℚ) (hk : keys.Nodup)
    (hsig : ∀ i < N, canonSig keys states i ∈ keys)
    (hsymm : ∀ a b, p a b = p b a)
    (hdiag : ∀ a ∈ keys, p a a = 0)
    (hS : expectedEdgesCode keys (groupSize keys states N) p ≠ 0) :
    (∀ a ∈ keys, ∀ b ∈ keys,
      adjustProbs keys (groupSize keys states N) T p a b
        = adjustRatio keys (groupSize keys states N) T p * p a b) ∧
    expectedUndirected keys states N (adjustProbs keys (groupSize keys states N) T p)
      = T := by
  have hpart1 : ∀ a ∈ keys, ∀ b ∈ keys,
      adjustProbs keys (groupSize keys states N) T p a b
        = adjustRatio keys (groupSize keys states N) T p * p a b := by
    intro a ha b hb
    rw [adjustProbs]
    exact updateLoop_mem _ _ p a b (pairList_nodup hk) (mem_pairList.mpr ⟨ha, hb⟩)
  refine ⟨hpart1, ?_⟩
  have hE : expectedUndirected keys states N (adjustProbs keys (groupSize keys states N) T p)
      = adjustRatio keys (groupSize keys states N) T p
          * expectedUndirected keys states N p := by
    rw [expectedUndirected, expectedUndirected, Finset.mul_sum]
    apply Finset.sum_congr rfl
    intro i hi
    rw [Finset.mul_sum]
    apply Finset.sum_congr rfl
    intro j hj
    have hiN := Finset.mem_range.mp hi
    have hjN : j < N := by
      have := Finset.mem_range.mp hj
      omega
    exact hpart1 _ (hsig i hiN) _ (hsig j hjN)
  have hfiber : ∀ f : List ℕ → ℚ,
      ∑ i ∈ Finset.range N, f (canonSig keys states i)
        = (keys.map (fun s => ((groupSize keys states N s : ℚ) * f s))).sum :=
    fun f => sum_sig_fiber keys hk (canonSig keys states) N hsig f
  have hnode : ∑ i ∈ Finset.range N, ∑ j ∈ Finset.range N,
      p (canonSig keys states i) (canonSig keys states j)
        = expectedEdgesCode keys (groupSize keys states N) p := by
    rw [expectedEdgesCode_eq keys hk]
    rw [hfiber (fun s => ∑ j ∈ Finset.range N, p s (canonSig keys states j))]
    congr 1
    apply List.map_congr_left
    intro a _
    rw [hfiber (fun s => p a s)]
    rw [sum_map_mul_left]
    congr 1
    apply List.map_congr_left
    intro b _
    ring
  have hdiag2 : ∑ i ∈ Finset.range N,
      p (canonSig keys states i) (canonSig keys states i) = 0 :=
    Finset.sum_eq_zero (fun i hi => hdiag _ (hsig i (Finset.mem_range.mp hi)))
  have hsplit := double_sum_eq
    (fun i j => p (canonSig keys states i) (canonSig keys states j))
    (fun i j => hsymm _ _) N
  have hSE : expectedEdgesCode keys (groupSize keys states N) p
      = 2 * expectedUndirected keys states N p := by
    rw [← hnode, hsplit, hdiag2, add_zero]
    rfl
  have hE0 : expectedUndirected keys states N p ≠ 0 := by
    intro h0
    apply hS
    rw [hSE, h0, mul_zero]
  rw [hE, adjustRatio, hSE]
  field_simp
  ring

/-- Witness for the amended C8 at a concrete input: two singleton groups,
cross probability 1, zero within-group probability, target 1 — the entry is
rescaled by the global factor and the expected edge count after rescaling
equals the target. -/
theorem adjustProbs_expected_witness :
    (adjustProbs [[0], [1]] (groupSize [[0], [1]] [[0, 1]] 2) 1
        (fun a b => if a = b then (0 : ℚ) else 1) [0] [1]
      = adjustRatio [[0], [1]] (groupSize [[0], [1]] [[0, 1]] 2) 1
          (fun a b => if a = b then (0 : ℚ) else 1)
          * (fun a b => if a = b then (0 : ℚ) else 1) [0] [1]) ∧
    expectedUndirected [[0], [1]] [[0, 1]] 2
      (adjustProbs [[0], [1]] (groupSize [[0], [1]] [[0, 1]] 2) 1
        (fun a b => if a = b then (0 : ℚ) else 1)) = 1 := by
  have h := adjustProbs_expected [[0], [1]] [[0, 1]] 2 1
    (fun a b => if a = b then (0 : ℚ) else 1) (by decide) (by decide)
    (by
      intro a b
      by_cases hab : a = b
      · subst hab
        simp
      · have hba : ¬ b = a := fun hba2 => hab hba2.symm
        simp [hab, hba])
    (by
      intro a _
      simp)
    (by
      have hcode : expectedEdgesCode [[0], [1]] (groupSize [[0], [1]] [[0, 1]] 2)
          (fun a b => if a = b then (0 : ℚ) else 1) = 2 := by
        rw [expectedEdgesCode,
          show pairList [[0], [1]]
            = [([0], [0]), ([0], [1]), ([1], [0]), ([1], [1])] from rfl]
        norm_num [expectedLoop,
          show groupSize [[0], [1]] [[0, 1]] 2 [0] = 1 from rfl,
          show groupSize [[0], [1]] [[0, 1]] 2 [1] = 1 from rfl]
      rw [hcode]
      norm_num)
  exact ⟨h.1 [0] (by decide) [1] (by decide), h.2⟩

/-! ### Claims C1, C2, C9 -/

/-- C1: `accept(curr, prop)` returns `True` if and only if `prop > curr`:
a strictly improving proposal is accepted deterministically, a non-improving
one rejected deterministically, and for every input the body takes an early
return (`Except.error`), so the Metropolis branch computing
`exp(-beta*(prop/curr))` is unreachable and the result is independent of the
draw it would make. -/
theorem accept_greedy_iff (curr prop : ℚ) (d : Bool) :
    (accept curr prop d = true ↔ prop > curr) ∧
    acceptBody curr prop d = Except.error (decide (prop > curr)) := by
  by_cases h : prop > curr <;>
    simp [accept, acceptBody, h, Bind.bind, Except.bind]

/-- C2 counterexample: a caller-supplied starting model whose score is below
0.4 is NOT used unchanged — the warm-start loop replaces it with a model
from the random stream (here models are scored by identity: the supplied
model `0` scores `0 < 0.4` and is replaced by the stream model `1`). -/
theorem mhInit_counterexample :
    mhInit (some (0 : ℚ)) (fun _ => (1 : ℚ)) (fun s => s) 1 ≠ 0 := by
  norm_num [mhInit, warmLoop]

/-- C2 (amended): the `while curr_score < .4` warm-start loop runs whether or
not a starting model was supplied; a supplied starting model is used
unchanged as the initial current model iff its score is at least 0.4, and
when its score is below 0.4 the loop discards it and continues from the
first random-stream model. -/
theorem mhInit_amended {M : Type} (g0 : M) (stream : ℕ → M) (scoreOf : M → ℚ) (fuel : ℕ) :
    (¬ scoreOf g0 < 2 / 5 → mhInit (some g0) stream scoreOf fuel = g0) ∧
    (scoreOf g0 < 2 / 5 → 0 < fuel →
      mhInit (some g0) stream scoreOf fuel = warmLoop scoreOf stream (fuel - 1) 1 (stream 0)) := by
  constructor
  · intro h
    cases fuel with
    | zero => simp [mhInit, warmLoop]
    | succ f => simp [mhInit, warmLoop, h]
  · intro h hf
    cases fuel with
    | zero => exact absurd hf (lt_irrefl 0)
    | succ f => simp [mhInit, warmLoop, h]

/-- Witness for the amended C2 at concrete inputs: a supplied model of score
1 (≥ 0.4) is kept; a supplied model of score 0 (< 0.4) is handed to the
warm-start loop starting from the stream. -/
theorem mhInit_amended_witness :
    mhInit (some (1 : ℚ)) (fun _ => (0 : ℚ)) (fun s => s) 3 = 1 ∧
    mhInit (some (0 : ℚ)) (fun _ => (1 : ℚ)) (fun s => s) 3 =
      warmLoop (fun s => s) (fun _ => (1 : ℚ)) 2 1 1 :=
  ⟨(mhInit_amended (1 : ℚ) (fun _ => (0 : ℚ)) (fun s => s) 3).1 (by norm_num),
   (mhInit_amended (0 : ℚ) (fun _ => (1 : ℚ)) (fun s => s) 3).2 (by norm_num) (by norm_num)⟩

/-- C4: for every pattern set and every target `0 ≤ k ≤` initial edge count,
`prune(patterns, k)` returns a model with exactly `k` edges (for any
tie-breaking shuffle of the priority queue); and with `k` equal to the
initial edge count zero removals are performed and the returned graph is
identical (adjacency and weights) to the trained input. -/
theorem prunedHopfield_exact_count (patterns : List (List ℕ)) (k : ℤ)
    (shuffle : List (Entry (ℕ × ℕ)) → List (Entry (ℕ × ℕ)))
    (hs : ∀ l, (shuffle l).Perm l) (hk0 : 0 ≤ k)
    (hk : k ≤ ((trainedFC patterns).numEdges : ℤ)) :
    (prunedHopfield patterns k shuffle).map (fun g1 => (g1.numEdges : ℤ)) = some k ∧
    prunedHopfield patterns ((trainedFC patterns).numEdges : ℤ) shuffle
      = some (trainedFC patterns) := by
  constructor
  · have hperm : (shuffle (edgePQ (trainedFC patterns))).Perm (edgePQ (trainedFC patterns)) :=
      hs (edgePQ (trainedFC patterns))
    have hmem : ∀ e ∈ shuffle (edgePQ (trainedFC patterns)),
        e.item.2 < e.item.1 ∧ e.item.1 < (trainedFC patterns).n ∧
          (trainedFC patterns).adj e.item.1 e.item.2 = true :=
      fun e he => mem_edgePQ (hperm.subset he)
    have hnodup : ((shuffle (edgePQ (trainedFC patterns))).map (fun e => e.item)).Nodup :=
      ((hperm.map (fun e => e.item)).nodup_iff).mpr (edgePQ_items_nodup (trainedFC patterns))
    have hlen : (shuffle (edgePQ (trainedFC patterns))).length = (trainedFC patterns).numEdges := by
      rw [hperm.length_eq, edgePQ_length]
    have hle : (((trainedFC patterns).numEdges : ℤ) - k).toNat
        ≤ (shuffle (edgePQ (trainedFC patterns))).length := by
      rw [hlen]
      omega
    obtain ⟨g1, heq, hcount, hn⟩ :=
      pruneLoop_count ((((trainedFC patterns).numEdges : ℤ) - k).toNat) (trainedFC patterns)
        (shuffle (edgePQ (trainedFC patterns))) hmem hnodup hlen hle
    rw [prunedHopfield, prunedCore, heq]
    show some ((g1.numEdges : ℤ)) = some k
    have hval : (g1.numEdges : ℤ) = k := by
      rw [hcount]
      omega
    rw [hval]
  · rw [prunedHopfield, prunedCore]
    have h0 : (((trainedFC patterns).numEdges : ℤ) - ((trainedFC patterns).numEdges : ℤ)).toNat
        = 0 := by omega
    rw [h0]
    rfl

/-- Witness for C4 at a concrete input: one stored pattern `[1,0]` on two
nodes gives a single trained edge; pruning to 0 edges yields edge count 0,
and pruning to the full count returns the trained net itself. -/
theorem prunedHopfield_exact_count_witness :
    (prunedHopfield [[1, 0]] 0 (fun l => l)).map (fun g1 => (g1.numEdges : ℤ)) = some 0 ∧
    prunedHopfield [[1, 0]] ((trainedFC [[1, 0]]).numEdges : ℤ) (fun l => l)
      = some (trainedFC [[1, 0]]) :=
  prunedHopfield_exact_count [[1, 0]] 0 (fun l => l) (fun l => List.Perm.refl l)
    (by norm_num) (by positivity)

/-- C5 counterexample: with one trained edge and `target_edge_count = 2`
(exceeding the edge count), `pruned_hopfield` does not fail at all: the
removal loop runs `range(1 - 2) = range(-1)`, i.e. zero iterations, and the
trained graph is returned unchanged. -/
theorem prunedHopfield_over_budget_no_failure :
    prunedHopfield [[1, 0]] 2 (fun l => l) = some (trainedFC [[1, 0]]) := by
  rw [prunedHopfield, prunedCore]
  rw [show (trainedFC [[1, 0]]).numEdges = 1 from by decide]
  rfl

/-- C5 (amended): `pruned_hopfield` performs no validation of
`target_edge_count`: when the target exceeds the edge count the removal
count is negative, zero removals happen and the graph is returned unchanged
(with more edges than the target, no error); when the target is negative
the loop attempts more pops than the queue holds and fails with the empty
heap pop (`IndexError`), not `InvalidArgument`. -/
theorem prunedCore_no_validation (g : HG) (k : ℤ)
    (shuffle : List (Entry (ℕ × ℕ)) → List (Entry (ℕ × ℕ)))
    (hs : ∀ l, (shuffle l).Perm l) :
    ((g.numEdges : ℤ) < k → prunedCore g k shuffle = some g) ∧
    (k < 0 → prunedCore g k shuffle = none) := by
  constructor
  · intro hk
    rw [prunedCore]
    have h0 : ((g.numEdges : ℤ) - k).toNat = 0 := by omega
    rw [h0]
    rfl
  · intro hk
    rw [prunedCore]
    apply pruneLoop_overrun
    have hlen : (shuffle (edgePQ g)).length = g.numEdges := by
      rw [(hs (edgePQ g)).length_eq, edgePQ_length]
    rw [hlen]
    omega

/-- Witness for the amended C5 at a concrete input: the one-edge trained net
with target 2 is returned unchanged, and with target -1 the run fails. -/
theorem prunedCore_no_validation_witness :
    prunedCore (trainedFC [[1, 0]]) 2 (fun l => l) = some (trainedFC [[1, 0]]) ∧
    prunedCore (trainedFC [[1, 0]]) (-1) (fun l => l) = none :=
  ⟨(prunedCore_no_validation (trainedFC [[1, 0]]) 2 (fun l => l)
      (fun l => List.Perm.refl l)).1
      (by rw [show (trainedFC [[1, 0]]).numEdges = 1 from by decide]; norm_num),
   (prunedCore_no_validation (trainedFC [[1, 0]]) (-1) (fun l => l)
      (fun l => List.Perm.refl l)).2 (by norm_num)⟩

/-- C7: for identical inputs and identical per-node neighbor selections,
the `mutual_only=True` run produces a subset of the edges of the
`mutual_only=False` run — every edge present with `intersection` set is
present without it — and hence never more edges. -/
theorem lattice_mutual_subset (patterns : List (List ℕ)) (N : ℕ) (nbrs : List (List ℕ)) :
    (∀ a c, (buildLattice patterns N nbrs true).adj a c = true →
      (buildLattice patterns N nbrs false).adj a c = true) ∧
    (buildLattice patterns N nbrs true).numEdges
      ≤ (buildLattice patterns N nbrs false).numEdges := by
  refine ⟨buildLattice_mono patterns N nbrs, ?_⟩
  apply numEdges_mono
  · rw [buildLattice_n, buildLattice_n]
  · exact buildLattice_mono patterns N nbrs

/-- Witness for C7 at a concrete input: two mutually-selecting nodes; the
edge produced by the mutual run is also produced by the non-mutual run. -/
theorem lattice_mutual_subset_witness :
    (buildLattice [[0, 1]] 2 [[1], [0]] false).adj 0 1 = true ∧
    (buildLattice [[0, 1]] 2 [[1], [0]] true).numEdges
      ≤ (buildLattice [[0, 1]] 2 [[1], [0]] false).numEdges :=
  ⟨(lattice_mutual_subset [[0, 1]] 2 [[1], [0]]).1 0 1 (by decide),
   (lattice_mutual_subset [[0, 1]] 2 [[1], [0]]).2⟩

/-- C3: the topology constructors preserve the structural invariant —
adjacency stays symmetric and a zero adjacency entry implies a zero weight
entry: pruning preserves it from any input satisfying it, and the
block-model and lattice constructors establish it from scratch. -/
theorem constructors_preserve_invariants (g : HG) (hS : SymmAdj g) (hC : Consist g) :
    (∀ (k : ℤ) (shuffle : List (Entry (ℕ × ℕ)) → List (Entry (ℕ × ℕ))),
      InvO (prunedCore g k shuffle)) ∧
    (∀ (keys : List (List ℕ)) (p : List ℕ → List ℕ → ℚ) (states : List (List ℕ))
      (numEdges : ℕ) (u : ℕ → ℕ → ℚ),
      SymmAdj (hopfieldSbm keys p states numEdges u).1 ∧
        Consist (hopfieldSbm keys p states numEdges u).1) ∧
    (∀ (patterns : List (List ℕ)) (k : ℕ) (inter : Bool),
      InvO (hopfieldLattice patterns k inter)) := by
  refine ⟨?_, ?_, ?_⟩
  · intro k shuffle
    rw [prunedCore, InvO]
    cases h : pruneLoop g (shuffle (edgePQ g))
        (((g.numEdges : ℤ) - k).toNat) with
    | none => exact trivial
    | some g1 =>
      obtain ⟨h1, h2⟩ := pruneLoop_inv _ g _ h
      exact ⟨h1 hS, h2 hC⟩
  · intro keys p states numEdges u
    constructor
    · exact symmAdj_trainAll states (sbmGenerate_inv keys states _ u _).1
    · exact consist_trainAll states _
  · intro patterns k inter
    rw [hopfieldLattice, InvO]
    cases h : nearestNeighbors patterns (patterns.headD []).length k with
    | none => exact trivial
    | some nbrs => exact buildLattice_inv patterns _ nbrs inter

/-- Witness for C3 at concrete inputs for all three constructors. -/
theorem constructors_preserve_invariants_witness :
    InvO (prunedCore (trainedFC [[1, 0]]) 0 (fun l => l)) ∧
    (SymmAdj (hopfieldSbm [[0]] (fun _ _ => 1) [[0, 0]] 1 (fun _ _ => 1)).1 ∧
      Consist (hopfieldSbm [[0]] (fun _ _ => 1) [[0, 0]] 1 (fun _ _ => 1)).1) ∧
    InvO (hopfieldLattice [[0, 0], [0, 1]] 1 false) :=
  ⟨(constructors_preserve_invariants (trainedFC [[1, 0]]) (by decide) (by decide)).1
      0 (fun l => l),
   (constructors_preserve_invariants (trainedFC [[1, 0]]) (by decide) (by decide)).2.1
      [[0]] (fun _ _ => 1) [[0, 0]] 1 (fun _ _ => 1),
   (constructors_preserve_invariants (trainedFC [[1, 0]]) (by decide) (by decide)).2.2
      [[0, 0], [0, 1]] 1 false⟩

/-- C9: running the optimizer with `max_iter = 0` executes zero search
iterations: the returned best model is the post-warm-start initial model
unchanged, and all three history lists are empty. -/
theorem mh_max_iter_zero {M : Type} (O : MHOracles M) (alpha : ℚ) (hop0 : Option M)
    (fuel : ℕ) :
    metropolisHastings O alpha 0 hop0 fuel =
      (mhInit hop0 O.stream (mhScoreOf O alpha) fuel, [], [], []) := rfl

end SFI

